import Mathlib

/-!
# PQCryptoLite (src/lattice-PQC.h): a shallow embedding and its verified properties

The class works on `std::array<int16_t, 16>` polynomials with coefficients
reduced modulo `Q = 3329`.  Machine integers are embedded as mathematical
integers with explicit two's-complement wrapping: `int` arithmetic goes
through `wrapInt32`, and every value stored into an `int16_t` goes through
`I16.ofInt`.  The pseudorandom generator (`std::mt19937` read through
`std::uniform_int_distribution<int16_t>`) and SHA-256 (`QCryptographicHash`)
are library code; they are parameters of the embedding.
-/

namespace PQCryptoLite

/-- Polynomial degree, `static constexpr int N = 16`. -/
abbrev N : Nat := 16

/-- Modulus, `static constexpr int Q = 3329`. -/
abbrev Q : Int := 3329

/-- Two's-complement reduction of an integer into the `int16_t` range. -/
def wrapInt16 (x : Int) : Int := (x + 32768) % 65536 - 32768

/-- Two's-complement reduction of an integer into the 32-bit `int` range. -/
def wrapInt32 (x : Int) : Int := (x + 2147483648) % 4294967296 - 2147483648

/-- The values of `int16_t`. -/
def I16 : Type := { x : Int // -32768 ≤ x ∧ x < 32768 }

instance : DecidableEq I16 := by unfold I16; infer_instance

/-- Conversion of an `int` to `int16_t` (keeps the low 16 bits). -/
def I16.ofInt (x : Int) : I16 := ⟨wrapInt16 x, by unfold wrapInt16; omega⟩

/-- `using Poly = std::array<int16_t, N>`. -/
abbrev Poly : Type := Fin N → I16

/-- The loop `for (int i = 0; i < n; ++i) body`, run on a state `init`. -/
def forLoop {σ : Type} (n : Nat) (body : Fin n → σ → σ) (init : σ) : σ :=
  (List.finRange n).foldl (fun s i => body i s) init

/-- The array `{0}`; it also stands for the content of a freshly declared
`Poly` before the loop that assigns every one of its entries. -/
def zeroPoly : Poly := fun _ => I16.ofInt 0

/-- `int16_t modQ(int x)`: `x % Q` truncates toward zero in C++ (`Int.tmod`),
a negative remainder is lifted by `Q`, and the `int` result is converted to
`int16_t`. -/
def modQ (x : Int) : I16 :=
  let r := Int.tmod x Q
  I16.ofInt (if r < 0 then wrapInt32 (r + Q) else r)

/-- `Poly polyAdd(const Poly &a, const Poly &b)`; the operands are promoted
to `int` before the addition. -/
def polyAdd (a b : Poly) : Poly :=
  forLoop N (fun i r => Function.update r i (modQ (wrapInt32 ((a i).val + (b i).val)))) zeroPoly

/-- `Poly polySub(const Poly &a, const Poly &b)`. -/
def polySub (a b : Poly) : Poly :=
  forLoop N (fun i r => Function.update r i (modQ (wrapInt32 ((a i).val - (b i).val)))) zeroPoly

/-- The index `k = (i + j) % N` of the inner loop of `polyMul`. -/
def mulIndex (i j : Fin N) : Fin N := ⟨(i.val + j.val) % N, Nat.mod_lt _ (by decide)⟩

/-- One execution of the inner loop body of `polyMul`:
`r[k] = modQ(r[k] + a[i] * b[j])`, all arithmetic in `int`. -/
def mulStep (a b : Poly) (i j : Fin N) (r : Poly) : Poly :=
  Function.update r (mulIndex i j)
    (modQ (wrapInt32 ((r (mulIndex i j)).val + wrapInt32 ((a i).val * (b j).val))))

/-- `Poly polyMul(const Poly &a, const Poly &b)`: the double loop over `i`
and `j` on the accumulator `r = {0}`. -/
def polyMul (a b : Poly) : Poly :=
  forLoop N (fun i r => forLoop N (fun j r => mulStep a b i j r) r) zeroPoly

section Sampler

variable {G : Type}

/-- `Poly sampleUniform()`.  `dist lo hi g` is one draw of a
`std::uniform_int_distribution<int16_t>(lo, hi)` from the generator in state
`g`: the value drawn and the next state. -/
def sampleUniform (dist : I16 → I16 → G → I16 × G) (g : G) : Poly × G :=
  forLoop N (fun i (s : Poly × G) =>
    (Function.update s.1 i (dist (I16.ofInt 0) (I16.ofInt (wrapInt32 (Q - 1))) s.2).1,
     (dist (I16.ofInt 0) (I16.ofInt (wrapInt32 (Q - 1))) s.2).2)) (zeroPoly, g)

/-- `Poly sampleNoise(int bound)`: each draw from `[-bound, bound]` is
promoted to `int` and stored through `modQ`. -/
def sampleNoise (dist : I16 → I16 → G → I16 × G) (bound : Int) (g : G) : Poly × G :=
  forLoop N (fun i (s : Poly × G) =>
    (Function.update s.1 i
      (modQ (dist (I16.ofInt (wrapInt32 (-bound))) (I16.ofInt bound) s.2).1.val),
     (dist (I16.ofInt (wrapInt32 (-bound))) (I16.ofInt bound) s.2).2)) (zeroPoly, g)

end Sampler

/-- The two bytes of an `int16_t` in memory, low byte first (little-endian
two's complement, as on the reference platform). -/
def int16Bytes (v : I16) : List Nat :=
  [(v.val % 65536).toNat % 256, (v.val % 65536).toNat / 256]

/-- The byte array `data` that `hashPoly` builds before hashing: the loop
`for (int16_t v : p) data.append(&v, sizeof(int16_t))`. -/
def hashPolyData (p : Poly) : List Nat :=
  forLoop N (fun i data => data ++ int16Bytes (p i)) []

/-- `QByteArray hashPoly(const Poly &p)`, with the digest function
(`QCryptographicHash::hash(_, Sha256)`) as the parameter `sha256`. -/
def hashPoly (sha256 : List Nat → List Nat) (p : Poly) : List Nat :=
  sha256 (hashPolyData p)

structure PublicKey where
  a : Poly
  b : Poly

structure PrivateKey where
  s : Poly

structure CipherText where
  u : Poly
  v : Poly

structure SharedSecret where
  key : List Nat

section KEM

variable {G : Type}

set_option linter.unusedVariables false in
/-- `void keygen(PublicKey &pk, PrivateKey &sk)`: the two output parameters
come in with their previous content, `g` is the state of the member `rng`;
the default argument `bound = 3` of `sampleNoise` is written out. -/
def keygen (dist : I16 → I16 → G → I16 × G) (pk : PublicKey) (sk : PrivateKey) (g : G) :
    PublicKey × PrivateKey × G :=
  let d1 := sampleNoise dist 3 g
  let sk1 : PrivateKey := ⟨d1.1⟩
  let d2 := sampleNoise dist 3 d1.2
  let e := d2.1
  let d3 := sampleUniform dist d2.2
  let a := d3.1
  let b := polyAdd (polyMul a sk1.s) e
  let pk1 : PublicKey := ⟨a, pk.b⟩
  let pk2 : PublicKey := ⟨pk1.a, b⟩
  (pk2, sk1, d3.2)

set_option linter.unusedVariables false in
/-- `CipherText encapsulate(const PublicKey &pk, SharedSecret &ss)`: returns
the ciphertext, the content of the output parameter `ss`, and the next
generator state. -/
def encapsulate (dist : I16 → I16 → G → I16 × G) (sha256 : List Nat → List Nat)
    (pk : PublicKey) (ss : SharedSecret) (g : G) : CipherText × SharedSecret × G :=
  let d1 := sampleNoise dist 3 g
  let r := d1.1
  let d2 := sampleNoise dist 3 d1.2
  let e1 := d2.1
  let d3 := sampleNoise dist 3 d2.2
  let e2 := d3.1
  let u := polyAdd (polyMul pk.a r) e1
  let v := polyAdd (polyMul pk.b r) e2
  let ss1 : SharedSecret := ⟨hashPoly sha256 v⟩
  (⟨u, v⟩, ss1, d3.2)

/-- `SharedSecret decapsulate(const CipherText &ct, const PrivateKey &sk)`, a
non-const member function: `g` is the state of the member `rng` on entry,
and the second component is its state on return. -/
def decapsulate (sha256 : List Nat → List Nat) (ct : CipherText) (sk : PrivateKey) (g : G) :
    SharedSecret × G :=
  let t := polySub ct.v (polyMul ct.u sk.s)
  let ss : SharedSecret := ⟨hashPoly sha256 t⟩
  (ss, g)

end KEM

/-- The polynomial with coefficient `c` at index `i` and `0` elsewhere. -/
def monomial (i : Fin N) (c : Int) : Poly :=
  fun k => if k = i then I16.ofInt c else I16.ofInt 0

/-- Every coefficient lies in `[0, Q)`. -/
def Canonical (p : Poly) : Prop := ∀ k : Fin N, 0 ≤ (p k).val ∧ (p k).val < Q

instance (p : Poly) : Decidable (Canonical p) := by unfold Canonical; infer_instance

/-- The contribution of the pair `(i, j)` to coefficient `k` of the product. -/
def mulTerm (a b : Poly) (i j k : Fin N) : Int :=
  if mulIndex i j = k then (a i).val * (b j).val else 0

/-- A coefficient as `sampleNoise` stores it for a draw in `[-3, 3]`: the
draw itself when it is non-negative, `Q` plus the draw when it is negative. -/
def NoiseCoeff (c : I16) : Prop := (0 ≤ c.val ∧ c.val ≤ 3) ∨ (Q - 3 ≤ c.val ∧ c.val < Q)

instance (c : I16) : Decidable (NoiseCoeff c) := by unfold NoiseCoeff; infer_instance

/-- Proof device: the image of a polynomial in the group algebra of the
index group `Fin N` over the integers modulo `Q`, whose product is cyclic
convolution. -/
noncomputable def toAlg (p : Poly) : AddMonoidAlgebra (ZMod 3329) (Fin N) :=
  Finsupp.equivFunOnFinite.symm (fun i => (((p i).val : Int) : ZMod 3329))

/-- The polynomial whose coefficients are the entries of `l`, each converted
to `int16_t`; entries that `l` does not give are `0`. -/
def polyOfList (l : List Int) : Poly := fun k => I16.ofInt (l.getD k.val 0)

/-- A generator to run the sampler on: its state is a counter, and a draw
from `[lo, hi]` returns `lo` plus the counter modulo the width of the range. -/
def counterDist (lo hi : I16) (g : Nat) : I16 × Nat :=
  (I16.ofInt (lo.val + (g : Int) % (hi.val - lo.val + 1)), g + 1)

section Draws

variable {G : Type}

/-- The state of the generator after `n` draws from `[lo, hi]`, when it
started in state `g`. -/
def drawState (dist : I16 → I16 → G → I16 × G) (lo hi : I16) (g : G) : Nat → G
  | 0 => g
  | n + 1 => (dist lo hi (drawState dist lo hi g n)).2

/-- The value of draw number `n` (the first draw has number `0`) from
`[lo, hi]`, when the generator started in state `g`. -/
def drawValue (dist : I16 → I16 → G → I16 × G) (lo hi : I16) (g : G) (n : Nat) : I16 :=
  (dist lo hi (drawState dist lo hi g n)).1

end Draws

end PQCryptoLite

/-!
# FastRSA (src/rsa_fast.h)

`BigInt` is `quint64`: values are natural numbers, and every arithmetic
result is kept modulo `2^64` (`wrapU64`, `subU64`).  Byte arrays are lists of
byte values.  A division by zero, which C++ leaves undefined, is outside the
model; no theorem below evaluates one.
-/

namespace FastRSA

/-- Reduction of an arithmetic result to the 64 bits of a `BigInt`. -/
def wrapU64 (x : Nat) : Nat := x % 18446744073709551616

/-- Subtraction of `BigInt` values, which wraps around below zero. -/
def subU64 (x y : Nat) : Nat := wrapU64 (wrapU64 x + 18446744073709551616 - wrapU64 y)

/-- `struct Key { BigInt n; BigInt exp; }`. -/
structure Key where
  n : Nat
  exp : Nat
deriving DecidableEq

/-- The loop `while (exp > 0)` of `modExp` on the variables `result`, `base`
and `exp`; `fuel` bounds the number of iterations. -/
def modExpLoop (mod : Nat) : Nat → Nat → Nat → Nat → Nat
  | 0, result, _, _ => result
  | fuel + 1, result, base, exp =>
    if exp > 0 then
      modExpLoop mod fuel
        (if exp &&& 1 ≠ 0 then wrapU64 (result * base) % mod else result)
        (wrapU64 (base * base) % mod)
        (exp >>> 1)
    else result

/-- `BigInt modExp(BigInt base, BigInt exp, BigInt mod)`.  Every iteration
halves `exp`, so `exp` iterations are never used up. -/
def modExp (base exp mod : Nat) : Nat :=
  modExpLoop mod exp 1 (base % mod) exp

/-- The loop `while (b != 0)` of `gcd`; `fuel` bounds the number of
iterations. -/
def gcdLoop : Nat → Nat → Nat → Nat
  | 0, a, _ => a
  | fuel + 1, a, b => if b ≠ 0 then gcdLoop fuel b (a % b) else a

/-- `BigInt gcd(BigInt a, BigInt b)`.  Every iteration makes `b` smaller, so
`b + 1` iterations are never used up. -/
def gcd (a b : Nat) : Nat := gcdLoop (b + 1) a b

/-- The loop `while (a > 1)` of `modInverse` on the variables `a`, `m`, `x0`
and `x1`; it returns the final `x1`, and `fuel` bounds the number of
iterations. -/
def modInverseLoop : Nat → Nat → Nat → Nat → Nat → Nat
  | 0, _, _, _, x1 => x1
  | fuel + 1, a, m, x0, x1 =>
    if a > 1 then
      modInverseLoop fuel m (a % m) (subU64 x1 (wrapU64 ((a / m) * x0))) x0
    else x1

/-- `BigInt modInverse(BigInt a, BigInt m)`.  Every iteration makes `m`
smaller, so `m + 2` iterations are never used up.  The test `x1 < 0` is on
an unsigned value. -/
def modInverse (a m : Nat) : Nat :=
  if m = 1 then 0
  else
    let x1 := modInverseLoop (m + 2) a m 0 1
    if x1 < 0 then wrapU64 (x1 + m) else x1

/-- The loop `while (gcd(e, phi) != 1) e += 2` of `generateKeys`; `none` when
`fuel` iterations do not end it. -/
def exponentLoop (phi : Nat) : Nat → Nat → Option Nat
  | 0, _ => none
  | fuel + 1, e => if gcd e phi ≠ 1 then exponentLoop phi fuel (wrapU64 (e + 2)) else some e

/-- `void generateKeys(int bits)` from the two distinct primes `p` and `q`
that its calls of `generatePrime` returned: the public and the private key
it stores. -/
def generateKeys (p q : Nat) : Option (Key × Key) :=
  let n := wrapU64 (p * q)
  let phi := wrapU64 (subU64 p 1 * subU64 q 1)
  match exponentLoop phi (phi + 1) 3 with
  | none => none
  | some e => some (⟨n, e⟩, ⟨n, modInverse e phi⟩)

/-- The eight bytes of a `BigInt` in memory, lowest byte first
(little-endian, as on the reference platform). -/
def u64Bytes (c : Nat) : List Nat :=
  [c % 256, c / 256 % 256, c / 65536 % 256, c / 16777216 % 256, c / 4294967296 % 256,
    c / 1099511627776 % 256, c / 281474976710656 % 256, c / 72057594037927936 % 256]

/-- The `BigInt` that `memcpy(&c, data + i, sizeof(BigInt))` reads from the
eight bytes at offset `i`. -/
def readU64 (data : List Nat) (i : Nat) : Nat :=
  data.getD i 0 + 256 * data.getD (i + 1) 0 + 65536 * data.getD (i + 2) 0
    + 16777216 * data.getD (i + 3) 0 + 4294967296 * data.getD (i + 4) 0
    + 1099511627776 * data.getD (i + 5) 0 + 281474976710656 * data.getD (i + 6) 0
    + 72057594037927936 * data.getD (i + 7) 0

/-- The loop `for (int i = 0; i < message.size(); i += 2)` of `encrypt` on
the variables `i` and `result`; `fuel` bounds the number of iterations.
`static_cast<quint8>` is the reduction modulo `256`. -/
def encryptLoop (message : List Nat) (publicKey : Key) : Nat → Nat → List Nat → List Nat
  | 0, _, result => result
  | fuel + 1, i, result =>
    if i < message.length then
      encryptLoop message publicKey fuel (i + 2)
        (result ++ u64Bytes (modExp
          (if i + 1 < message.length
            then wrapU64 ((message.getD i 0 % 256) <<< 8) ||| (message.getD (i + 1) 0 % 256)
            else wrapU64 ((message.getD i 0 % 256) <<< 8))
          publicKey.exp publicKey.n))
    else result

/-- `QByteArray encrypt(const QByteArray &message, const Key &publicKey)`.
The index grows by two in every iteration, so `message.size()` iterations
are never used up. -/
def encrypt (message : List Nat) (publicKey : Key) : List Nat :=
  encryptLoop message publicKey message.length 0 []

/-- The bytes one iteration of the loop of `decrypt` appends for the block
value `m`: `high`, and `low` when it is not zero. -/
def decryptBlock (m : Nat) : List Nat :=
  if m &&& 255 ≠ 0 then [(m >>> 8) &&& 255, m &&& 255] else [(m >>> 8) &&& 255]

/-- The loop `for (int i = 0; i < ciphertext.size(); i += sizeof(BigInt))` of
`decrypt` on the variables `i` and `result`; `fuel` bounds the number of
iterations. -/
def decryptLoop (ciphertext : List Nat) (privateKey : Key) : Nat → Nat → List Nat → List Nat
  | 0, _, result => result
  | fuel + 1, i, result =>
    if i < ciphertext.length then
      decryptLoop ciphertext privateKey fuel (i + 8)
        (result ++ decryptBlock (modExp (readU64 ciphertext i) privateKey.exp privateKey.n))
    else result

/-- `QByteArray decrypt(const QByteArray &ciphertext, const Key &privateKey)`.
The index grows by eight in every iteration, so `ciphertext.size()`
iterations are never used up. -/
def decrypt (ciphertext : List Nat) (privateKey : Key) : List Nat :=
  decryptLoop ciphertext privateKey ciphertext.length 0 []

/-- The block values `m` that the loop of `encrypt` forms from the bytes of
a message, in the order of its iterations. -/
def messageBlocks : List Nat → List Nat
  | [] => []
  | [b] => [wrapU64 ((b % 256) <<< 8)]
  | b0 :: b1 :: rest => (wrapU64 ((b0 % 256) <<< 8) ||| (b1 % 256)) :: messageBlocks rest

/-- The message without its zero bytes at odd (0-based) indices. -/
def dropOddZeros : List Nat → List Nat
  | [] => []
  | [b] => [b]
  | b0 :: b1 :: rest => if b1 ≠ 0 then b0 :: b1 :: dropOddZeros rest else b0 :: dropOddZeros rest

end FastRSA

namespace PQCryptoLite

/-! ## Machine arithmetic -/

theorem wrapInt32_of_range (x : Int) (h1 : -2147483648 ≤ x) (h2 : x < 2147483648) :
    wrapInt32 x = x := by
  unfold wrapInt32; omega

theorem wrapInt16_of_range (x : Int) (h1 : -32768 ≤ x) (h2 : x < 32768) :
    wrapInt16 x = x := by
  unfold wrapInt16; omega

theorem I16.ofInt_val (x : Int) : (I16.ofInt x).val = wrapInt16 x := rfl

theorem I16.ext {x y : I16} (h : x.val = y.val) : x = y := Subtype.ext h

theorem I16.mul_range (x y : I16) :
    -1073741824 ≤ x.val * y.val ∧ x.val * y.val ≤ 1073741824 := by
  obtain ⟨x, hx1, hx2⟩ := x
  obtain ⟨y, hy1, hy2⟩ := y
  simp only
  constructor <;> nlinarith [mul_nonneg (show (0:Int) ≤ x + 32768 by omega) (show (0:Int) ≤ y + 32768 by omega),
    mul_nonneg (show (0:Int) ≤ 32768 - x by omega) (show (0:Int) ≤ 32768 - y by omega),
    mul_nonneg (show (0:Int) ≤ x + 32768 by omega) (show (0:Int) ≤ 32768 - y by omega),
    mul_nonneg (show (0:Int) ≤ 32768 - x by omega) (show (0:Int) ≤ y + 32768 by omega)]

theorem tmod_Q_spec (x : Int) :
    -3329 < Int.tmod x 3329 ∧ Int.tmod x 3329 < 3329 ∧ ∃ q, x = Int.tmod x 3329 + 3329 * q := by
  refine ⟨?_, Int.tmod_lt_of_pos x (by decide), ⟨x.tdiv 3329, (Int.tmod_add_tdiv x 3329).symm⟩⟩
  cases x with
  | ofNat n =>
    have := Int.tmod_nonneg (a := Int.ofNat n) 3329 (Int.ofNat_nonneg n)
    omega
  | negSucc n =>
    show -3329 < -((((n + 1) % 3329 : Nat)) : Int)
    omega

/-- The value `modQ` returns is the non-negative remainder of `x` by `Q`. -/
theorem modQ_val (x : Int) : (modQ x).val = x % 3329 := by
  obtain ⟨h1, h2, q, hq⟩ := tmod_Q_spec x
  unfold modQ
  simp only [I16.ofInt_val, Q]
  split
  · rw [wrapInt32_of_range _ (by omega) (by omega), wrapInt16_of_range _ (by omega) (by omega)]
    omega
  · rw [wrapInt16_of_range _ (by omega) (by omega)]
    omega

/-! ## Loops -/

theorem foldl_update_apply {n : Nat} {α : Type} (f : Fin n → α) (l : List (Fin n))
    (r : Fin n → α) (k : Fin n) :
    (l.foldl (fun s i => Function.update s i (f i)) r) k = if k ∈ l then f k else r k := by
  induction l generalizing r with
  | nil => simp
  | cons i t ih =>
    rw [List.foldl_cons, ih]
    by_cases hk : k ∈ t
    · simp [hk]
    · by_cases hki : k = i
      · subst hki; simp [hk]
      · simp [hk, hki]

/-- A loop that assigns `f i` to entry `i` for every `i` produces `f`,
whatever the array held before. -/
theorem forLoop_fill {n : Nat} {α : Type} (f : Fin n → α) (r : Fin n → α) :
    forLoop n (fun i s => Function.update s i (f i)) r = f := by
  funext k
  unfold forLoop
  rw [foldl_update_apply]
  simp [List.mem_finRange]

theorem polyAdd_apply (a b : Poly) (k : Fin N) :
    polyAdd a b k = modQ ((a k).val + (b k).val) := by
  unfold polyAdd
  rw [forLoop_fill (fun i => modQ (wrapInt32 ((a i).val + (b i).val)))]
  have ha := (a k).property
  have hb := (b k).property
  simp only
  rw [wrapInt32_of_range _ (by omega) (by omega)]

theorem polySub_apply (a b : Poly) (k : Fin N) :
    polySub a b k = modQ ((a k).val - (b k).val) := by
  unfold polySub
  rw [forLoop_fill (fun i => modQ (wrapInt32 ((a i).val - (b i).val)))]
  have ha := (a k).property
  have hb := (b k).property
  simp only
  rw [wrapInt32_of_range _ (by omega) (by omega)]

theorem polyAdd_val (a b : Poly) (k : Fin N) :
    (polyAdd a b k).val = ((a k).val + (b k).val) % 3329 := by
  rw [polyAdd_apply, modQ_val]

theorem polySub_val (a b : Poly) (k : Fin N) :
    (polySub a b k).val = ((a k).val - (b k).val) % 3329 := by
  rw [polySub_apply, modQ_val]

/-! ## The accumulation loop of `polyMul` -/

theorem zeroPoly_val (k : Fin N) : (zeroPoly k).val = 0 := rfl

theorem mulStep_val (a b : Poly) (i j : Fin N) (r : Poly) (k : Fin N) :
    (mulStep a b i j r k).val = ((r k).val + mulTerm a b i j k) % 3329 ∨
      ((mulStep a b i j r k).val = (r k).val ∧ mulTerm a b i j k = 0) := by
  have hm := I16.mul_range (a i) (b j)
  have hr := (r (mulIndex i j)).property
  unfold mulStep mulTerm
  by_cases hk : mulIndex i j = k
  · left
    subst hk
    rw [Function.update_same, modQ_val, wrapInt32_of_range ((a i).val * (b j).val) (by omega) (by omega),
      wrapInt32_of_range _ (by omega) (by omega)]
    simp
  · right
    rw [Function.update_noteq (Ne.symm hk)]
    simp [hk]

/-- Folding steps that each add `w x k` to coefficient `k` modulo `Q` adds
the sum of the `w x k`. -/
theorem foldl_accumulate {ι : Type} (step : ι → Poly → Poly) (w : ι → Fin N → Int)
    (hstep : ∀ x r k, Canonical r → ((step x r k).val = ((r k).val + w x k) % 3329 ∨
      ((step x r k).val = (r k).val ∧ w x k = 0)))
    (l : List ι) (r : Poly) (hr : Canonical r) (k : Fin N) :
    ((l.foldl (fun s x => step x s) r) k).val = ((r k).val + (l.map (fun x => w x k)).sum) % 3329 := by
  induction l generalizing r with
  | nil =>
    have := hr k
    simp only [List.foldl_nil, List.map_nil, List.sum_nil, Q] at *
    omega
  | cons x t ih =>
    have hcan : Canonical (step x r) := by
      intro m
      have := hr m
      simp only [Q] at *
      rcases hstep x r m hr with h | ⟨h, _⟩ <;> omega
    rw [List.foldl_cons, ih (step x r) hcan, List.map_cons, List.sum_cons]
    rcases hstep x r k hr with h | ⟨h, h0⟩
    · rw [h, Int.emod_add_emod, add_assoc]
    · rw [h, h0, zero_add]

theorem polyMul_inner_val (a b : Poly) (i : Fin N) (r : Poly) (hr : Canonical r) (k : Fin N) :
    (forLoop N (fun j s => mulStep a b i j s) r k).val =
      ((r k).val + ∑ j : Fin N, mulTerm a b i j k) % 3329 := by
  unfold forLoop
  rw [foldl_accumulate (fun j s => mulStep a b i j s) (fun j k => mulTerm a b i j k)
    (fun j s m _ => mulStep_val a b i j s m) _ r hr k, Fin.sum_univ_def]

/-- Coefficient `k` of `polyMul a b` is the double sum of the contributions
`a[i] * b[j]` with `(i + j) % N = k`, reduced modulo `Q`. -/
theorem polyMul_val (a b : Poly) (k : Fin N) :
    (polyMul a b k).val = (∑ i : Fin N, ∑ j : Fin N, mulTerm a b i j k) % 3329 := by
  unfold polyMul forLoop
  have hz : Canonical zeroPoly := by intro m; simp [zeroPoly_val]
  rw [foldl_accumulate (fun i s => (List.finRange N).foldl (fun s j => mulStep a b i j s) s)
    (fun i k => ∑ j : Fin N, mulTerm a b i j k)
    (fun i s m hs => Or.inl (polyMul_inner_val a b i s hs m)) _ zeroPoly hz k,
    zeroPoly_val, zero_add, Fin.sum_univ_def]

theorem canonical_polyAdd (a b : Poly) : Canonical (polyAdd a b) := by
  intro k; rw [polyAdd_val]; simp only [Q]; omega

theorem canonical_polySub (a b : Poly) : Canonical (polySub a b) := by
  intro k; rw [polySub_val]; simp only [Q]; omega

theorem canonical_polyMul (a b : Poly) : Canonical (polyMul a b) := by
  intro k; rw [polyMul_val]; simp only [Q]; omega

/-- Two canonical polynomials whose coefficients agree modulo `Q` are equal. -/
theorem canonical_ext {p q : Poly} (hp : Canonical p) (hq : Canonical q)
    (h : ∀ k, (p k).val % 3329 = (q k).val % 3329) : p = q := by
  funext k
  apply I16.ext
  have h1 := hp k
  have h2 := hq k
  have h3 := h k
  simp only [Q] at h1 h2
  omega

/-! ## Ring operations as operations of the group algebra -/

theorem toAlg_apply (p : Poly) (k : Fin N) : toAlg p k = (((p k).val : Int) : ZMod 3329) := rfl

theorem intCast_emod_Q (x : Int) : (((x % 3329 : Int)) : ZMod 3329) = (x : ZMod 3329) := by
  have := ZMod.intCast_mod x 3329
  simpa using this

theorem toAlg_polyAdd (a b : Poly) : toAlg (polyAdd a b) = toAlg a + toAlg b := by
  ext k
  rw [Finsupp.add_apply, toAlg_apply, toAlg_apply, toAlg_apply, polyAdd_val, intCast_emod_Q]
  push_cast; rfl

theorem toAlg_polySub (a b : Poly) : toAlg (polySub a b) = toAlg a - toAlg b := by
  ext k
  rw [Finsupp.sub_apply, toAlg_apply, toAlg_apply, toAlg_apply, polySub_val, intCast_emod_Q]
  push_cast; rfl

theorem mulIndex_eq_add (i j : Fin N) : mulIndex i j = i + j := by
  apply Fin.ext
  rw [Fin.val_add]
  rfl

theorem toAlg_polyMul (a b : Poly) : toAlg (polyMul a b) = toAlg a * toAlg b := by
  ext k
  rw [AddMonoidAlgebra.mul_apply, toAlg_apply, polyMul_val, intCast_emod_Q,
    Finsupp.sum_fintype _ _ (by intro i; simp)]
  push_cast
  apply Finset.sum_congr rfl
  intro i _
  rw [Finsupp.sum_fintype _ _ (by intro j; simp)]
  apply Finset.sum_congr rfl
  intro j _
  unfold mulTerm
  rw [mulIndex_eq_add, toAlg_apply, toAlg_apply]
  split <;> simp

/-- On canonical polynomials the passage to the group algebra loses nothing. -/
theorem toAlg_injOn {p q : Poly} (hp : Canonical p) (hq : Canonical q) (h : toAlg p = toAlg q) :
    p = q := by
  apply canonical_ext hp hq
  intro k
  have hk : toAlg p k = toAlg q k := by rw [h]
  rw [toAlg_apply, toAlg_apply] at hk
  exact (ZMod.intCast_eq_intCast_iff _ _ 3329).1 hk

/-- The polynomial hashed on the receiving side, with the key and ciphertext
equations substituted, loses every term that contains `a`. -/
theorem residual_eq (a s e r e1 e2 : Poly) :
    polySub (polyAdd (polyMul (polyAdd (polyMul a s) e) r) e2)
        (polyMul (polyAdd (polyMul a r) e1) s)
      = polySub (polyAdd (polyMul e r) e2) (polyMul e1 s) := by
  apply toAlg_injOn (canonical_polySub _ _) (canonical_polySub _ _)
  simp only [toAlg_polySub, toAlg_polyAdd, toAlg_polyMul]
  ring

/-! ## Serialization -/

theorem int16Bytes_length (v : I16) : (int16Bytes v).length = 2 := rfl

theorem int16Bytes_injective {v w : I16} (h : int16Bytes v = int16Bytes w) : v = w := by
  apply I16.ext
  have hv := v.property
  have hw := w.property
  unfold int16Bytes at h
  simp only [List.cons.injEq, and_true] at h
  omega

theorem foldl_append_inj {ι : Type} (f g : ι → List Nat)
    (hlen : ∀ i, (f i).length = (g i).length) (l : List ι) (acc acc2 : List Nat)
    (hacc : acc.length = acc2.length)
    (h : l.foldl (fun d i => d ++ f i) acc = l.foldl (fun d i => d ++ g i) acc2) :
    acc = acc2 ∧ ∀ i ∈ l, f i = g i := by
  induction l generalizing acc acc2 with
  | nil => exact ⟨h, by simp⟩
  | cons i t ih =>
    rw [List.foldl_cons, List.foldl_cons] at h
    obtain ⟨h1, h2⟩ := ih (acc ++ f i) (acc2 ++ g i) (by simp [hacc, hlen i]) h
    obtain ⟨h3, h4⟩ := List.append_inj h1 hacc
    refine ⟨h3, ?_⟩
    intro x hx
    rcases List.mem_cons.1 hx with hx | hx
    · rw [hx]; exact h4
    · exact h2 x hx

/-- Different polynomials are serialized to different byte arrays. -/
theorem hashPolyData_injective {p q : Poly} (h : hashPolyData p = hashPolyData q) : p = q := by
  unfold hashPolyData forLoop at h
  obtain ⟨_, h2⟩ := foldl_append_inj (fun i => int16Bytes (p i)) (fun i => int16Bytes (q i))
    (fun _ => rfl) _ [] [] rfl h
  funext k
  exact int16Bytes_injective (h2 k (List.mem_finRange k))

/-! ## The sampler as a sequence of draws -/

theorem foldl_draw_apply {n : Nat} {G : Type} (f : G → I16) (next : G → G)
    (l : List (Fin n)) (hnd : l.Nodup) (r : Fin n → I16) (g : G) :
    (l.foldl (fun (s : (Fin n → I16) × G) i => (Function.update s.1 i (f s.2), next s.2)) (r, g)).2
        = next^[l.length] g ∧
      ∀ k, (l.foldl (fun (s : (Fin n → I16) × G) i => (Function.update s.1 i (f s.2), next s.2))
          (r, g)).1 k = if k ∈ l then f (next^[l.indexOf k] g) else r k := by
  induction l generalizing r g with
  | nil => simp
  | cons i t ih =>
    obtain ⟨hi, ht⟩ := List.nodup_cons.1 hnd
    obtain ⟨h1, h2⟩ := ih ht (Function.update r i (f g)) (next g)
    rw [List.foldl_cons]
    refine ⟨by rw [h1, List.length_cons, Function.iterate_succ_apply], ?_⟩
    intro k
    rw [h2 k]
    by_cases hk : k ∈ t
    · have hki : i ≠ k := fun h => hi (h ▸ hk)
      rw [if_pos hk, if_pos (List.mem_cons_of_mem _ hk), List.indexOf_cons_ne _ hki,
        Function.iterate_succ_apply]
    · by_cases hki : k = i
      · subst hki
        rw [if_neg hk, if_pos (List.mem_cons_self _ _), List.indexOf_cons_self,
          Function.update_same]
        rfl
      · rw [if_neg hk, if_neg (by simp [hk, hki]), Function.update_noteq hki]

theorem drawState_eq_iterate {G : Type} (dist : I16 → I16 → G → I16 × G) (lo hi : I16) (g : G)
    (n : Nat) : drawState dist lo hi g n = (fun s => (dist lo hi s).2)^[n] g := by
  induction n with
  | zero => rfl
  | succ m ih => rw [Function.iterate_succ_apply', ← ih]; rfl

/-- Coefficient `k` of `sampleNoise` is `modQ` of draw number `k`, and the
generator is left in the state after `N` draws. -/
theorem sampleNoise_apply {G : Type} (dist : I16 → I16 → G → I16 × G) (bound : Int) (g : G) :
    (sampleNoise dist bound g).2
        = drawState dist (I16.ofInt (wrapInt32 (-bound))) (I16.ofInt bound) g N ∧
      ∀ k : Fin N, (sampleNoise dist bound g).1 k
        = modQ (drawValue dist (I16.ofInt (wrapInt32 (-bound))) (I16.ofInt bound) g k.val).val := by
  obtain ⟨h1, h2⟩ := foldl_draw_apply
    (fun s => modQ (dist (I16.ofInt (wrapInt32 (-bound))) (I16.ofInt bound) s).1.val)
    (fun s => (dist (I16.ofInt (wrapInt32 (-bound))) (I16.ofInt bound) s).2)
    (List.finRange N) (List.nodup_finRange N) zeroPoly g
  refine ⟨?_, ?_⟩
  · rw [drawState_eq_iterate]
    unfold sampleNoise forLoop
    rw [h1, List.length_finRange]
  · intro k
    unfold sampleNoise forLoop
    rw [h2 k, if_pos (List.mem_finRange k), List.indexOf_finRange, drawValue, drawState_eq_iterate]

/-! ## Basis polynomials and the zero polynomial in the group algebra -/

theorem canonical_monomial_one (i : Fin N) : Canonical (monomial i 1) := by
  intro k
  unfold monomial
  split <;> simp [I16.ofInt_val, wrapInt16]

theorem toAlg_monomial_one (i : Fin N) : toAlg (monomial i 1) = AddMonoidAlgebra.single i 1 := by
  ext k
  rw [toAlg_apply, AddMonoidAlgebra.single, Finsupp.single_apply]
  unfold monomial
  by_cases h : k = i
  · rw [if_pos h, if_pos h.symm]; simp [I16.ofInt_val, wrapInt16]
  · rw [if_neg h, if_neg (Ne.symm h)]; simp [I16.ofInt_val, wrapInt16]

theorem toAlg_zeroPoly : toAlg zeroPoly = 0 := by
  ext k
  rw [toAlg_apply, zeroPoly_val]
  simp

theorem canonical_zeroPoly : Canonical zeroPoly := by
  intro k; simp [zeroPoly_val]

theorem polyMul_basis_eq (i j : Fin N) :
    polyMul (monomial i 1) (monomial j 1) = monomial (mulIndex i j) 1 := by
  apply toAlg_injOn (canonical_polyMul _ _) (canonical_monomial_one _)
  rw [toAlg_polyMul, toAlg_monomial_one, toAlg_monomial_one, toAlg_monomial_one,
    AddMonoidAlgebra.single_mul_single, mulIndex_eq_add, mul_one]

theorem polyMul_zeroPoly (u : Poly) : polyMul u zeroPoly = zeroPoly := by
  apply toAlg_injOn (canonical_polyMul _ _) canonical_zeroPoly
  rw [toAlg_polyMul, toAlg_zeroPoly, mul_zero]

theorem canonical_mulStep (a b : Poly) (i j : Fin N) (r : Poly) (hr : Canonical r) :
    Canonical (mulStep a b i j r) := by
  intro m
  have := hr m
  simp only [Q] at *
  rcases mulStep_val a b i j r m with h | ⟨h, _⟩ <;> omega

/-! ## Layout of the serialized polynomial -/

theorem int16Bytes_eq (v : I16) :
    int16Bytes v = [(v.val % 256).toNat, ((v.val / 256) % 256).toNat] := by
  have hv := v.property
  unfold int16Bytes
  simp only [List.cons.injEq, and_true]
  omega

theorem foldl_append_layout {ι : Type} (f : ι → List Nat) (hlen : ∀ i, (f i).length = 2)
    (l : List ι) (acc : List Nat) :
    (l.foldl (fun d i => d ++ f i) acc).length = acc.length + 2 * l.length ∧
      (∀ n, n < acc.length → (l.foldl (fun d i => d ++ f i) acc)[n]? = acc[n]?) ∧
      ∀ (j : Nat) (hj : j < l.length) (t : Nat), t < 2 →
        (l.foldl (fun d i => d ++ f i) acc)[acc.length + 2 * j + t]? = (f l[j])[t]? := by
  induction l generalizing acc with
  | nil => simp
  | cons x t ih =>
    obtain ⟨h1, h2, h3⟩ := ih (acc ++ f x)
    have hx := hlen x
    rw [List.foldl_cons]
    refine ⟨?_, ?_, ?_⟩
    · rw [h1, List.length_append, List.length_cons, hx]; omega
    · intro n hn
      rw [h2 n (by rw [List.length_append]; omega), List.getElem?_append_left hn]
    · intro j hj u hu
      cases j with
      | zero =>
        rw [h2 _ (by rw [List.length_append]; omega),
          List.getElem?_append_right (by omega)]
        simp
      | succ m =>
        have hm : m < t.length := by simpa using hj
        have := h3 m hm u hu
        rw [List.length_append, hx] at this
        have he : acc.length + 2 * (m + 1) + u = acc.length + 2 + 2 * m + u := by omega
        rw [he, this]
        simp

/-! ## The key-encapsulation operations -/

/-- Claim C1: with the generator state passed explicitly, `encapsulate` draws
`r`, then `e1`, then `e2` with `sampleNoise 3` in that order, returns the
ciphertext `(u, v)` with `u = polyAdd (polyMul pk.a r) e1` and
`v = polyAdd (polyMul pk.b r) e2`, and stores `hashPoly v` as the shared
secret; so the sender's secret is `hashPoly` of the `v` of the ciphertext
returned. -/
theorem encapsulate_spec {G : Type} (dist : I16 → I16 → G → I16 × G)
    (sha256 : List Nat → List Nat) (pk : PublicKey) (ss : SharedSecret) (g : G)
    (r e1 e2 : Poly) (g1 g2 g3 : G)
    (hr : sampleNoise dist 3 g = (r, g1))
    (he1 : sampleNoise dist 3 g1 = (e1, g2))
    (he2 : sampleNoise dist 3 g2 = (e2, g3)) :
    encapsulate dist sha256 pk ss g =
        (⟨polyAdd (polyMul pk.a r) e1, polyAdd (polyMul pk.b r) e2⟩,
          ⟨hashPoly sha256 (polyAdd (polyMul pk.b r) e2)⟩, g3) ∧
      (encapsulate dist sha256 pk ss g).2.1.key =
        hashPoly sha256 (encapsulate dist sha256 pk ss g).1.v := by
  have h : encapsulate dist sha256 pk ss g =
      (⟨polyAdd (polyMul pk.a r) e1, polyAdd (polyMul pk.b r) e2⟩,
        ⟨hashPoly sha256 (polyAdd (polyMul pk.b r) e2)⟩, g3) := by
    unfold encapsulate
    simp only [hr, he1, he2]
  refine ⟨h, ?_⟩
  rw [h]

set_option maxRecDepth 100000 in
/-- The statement of `encapsulate` run on the counter generator from state `0`
with the public key `(7 x, 9 x^2)` and the identity in place of the digest. -/
theorem encapsulate_spec_witness :
    sampleNoise counterDist 3 0
        = (polyOfList [3326, 3327, 3328, 0, 1, 2, 3, 3326, 3327, 3328, 0, 1, 2, 3, 3326, 3327], 16) ∧
      sampleNoise counterDist 3 16
        = (polyOfList [3328, 0, 1, 2, 3, 3326, 3327, 3328, 0, 1, 2, 3, 3326, 3327, 3328, 0], 32) ∧
      sampleNoise counterDist 3 32
        = (polyOfList [1, 2, 3, 3326, 3327, 3328, 0, 1, 2, 3, 3326, 3327, 3328, 0, 1, 2], 48) ∧
      (encapsulate counterDist (fun d => d) ⟨monomial 1 7, monomial 2 9⟩ ⟨[]⟩ 0 =
        (⟨polyAdd (polyMul (monomial 1 7)
              (polyOfList [3326, 3327, 3328, 0, 1, 2, 3, 3326, 3327, 3328, 0, 1, 2, 3, 3326, 3327]))
            (polyOfList [3328, 0, 1, 2, 3, 3326, 3327, 3328, 0, 1, 2, 3, 3326, 3327, 3328, 0]),
          polyAdd (polyMul (monomial 2 9)
              (polyOfList [3326, 3327, 3328, 0, 1, 2, 3, 3326, 3327, 3328, 0, 1, 2, 3, 3326, 3327]))
            (polyOfList [1, 2, 3, 3326, 3327, 3328, 0, 1, 2, 3, 3326, 3327, 3328, 0, 1, 2])⟩,
          ⟨hashPoly (fun d => d) (polyAdd (polyMul (monomial 2 9)
              (polyOfList [3326, 3327, 3328, 0, 1, 2, 3, 3326, 3327, 3328, 0, 1, 2, 3, 3326, 3327]))
            (polyOfList [1, 2, 3, 3326, 3327, 3328, 0, 1, 2, 3, 3326, 3327, 3328, 0, 1, 2]))⟩, 48) ∧
        (encapsulate counterDist (fun d => d) ⟨monomial 1 7, monomial 2 9⟩ ⟨[]⟩ 0).2.1.key =
          hashPoly (fun d => d)
            (encapsulate counterDist (fun d => d) ⟨monomial 1 7, monomial 2 9⟩ ⟨[]⟩ 0).1.v) :=
  ⟨by decide, by decide, by decide,
    encapsulate_spec counterDist (fun d => d) ⟨monomial 1 7, monomial 2 9⟩ ⟨[]⟩ 0 _ _ _ 16 32 48
      (by decide) (by decide) (by decide)⟩

/-- Claim C2: `decapsulate` returns `hashPoly (polySub v (polyMul u s))` for
the ciphertext `(u, v)` and the private key `s`; it leaves the generator
state as it found it, and its result is the same for every generator state. -/
theorem decapsulate_spec {G : Type} (sha256 : List Nat → List Nat) (ct : CipherText)
    (sk : PrivateKey) (g : G) :
    decapsulate sha256 ct sk g = (⟨hashPoly sha256 (polySub ct.v (polyMul ct.u sk.s))⟩, g) ∧
      ∀ g2 : G, (decapsulate sha256 ct sk g2).1 = (decapsulate sha256 ct sk g).1 :=
  ⟨rfl, fun _ => rfl⟩

/-- Claim C3: with the generator state passed explicitly, `keygen` draws `s`
with `sampleNoise 3`, then `e` with `sampleNoise 3`, then `a` with
`sampleUniform`, and leaves the private key `s` and the public key `(a, b)`
with `b = polyAdd (polyMul a s) e` in its output parameters, whatever they
held before; so coefficient `k` of `b` is `(a * s)[k] + e[k]` reduced modulo
`Q`. -/
theorem keygen_spec {G : Type} (dist : I16 → I16 → G → I16 × G)
    (pk : PublicKey) (sk : PrivateKey) (g : G)
    (s e a : Poly) (g1 g2 g3 : G)
    (hs : sampleNoise dist 3 g = (s, g1))
    (he : sampleNoise dist 3 g1 = (e, g2))
    (ha : sampleUniform dist g2 = (a, g3)) :
    keygen dist pk sk g = (⟨a, polyAdd (polyMul a s) e⟩, ⟨s⟩, g3) ∧
      ∀ k : Fin N, ((keygen dist pk sk g).1.b k).val =
        ((polyMul (keygen dist pk sk g).1.a (keygen dist pk sk g).2.1.s k).val + (e k).val) % Q := by
  have h : keygen dist pk sk g = (⟨a, polyAdd (polyMul a s) e⟩, ⟨s⟩, g3) := by
    unfold keygen
    simp only [hs, he, ha]
  refine ⟨h, ?_⟩
  intro k
  rw [h]
  exact polyAdd_val _ _ k

set_option maxRecDepth 100000 in
/-- The statement of `keygen` run on the counter generator from state `0`. -/
theorem keygen_spec_witness :
    sampleNoise counterDist 3 0
        = (polyOfList [3326, 3327, 3328, 0, 1, 2, 3, 3326, 3327, 3328, 0, 1, 2, 3, 3326, 3327], 16) ∧
      sampleNoise counterDist 3 16
        = (polyOfList [3328, 0, 1, 2, 3, 3326, 3327, 3328, 0, 1, 2, 3, 3326, 3327, 3328, 0], 32) ∧
      sampleUniform counterDist 32
        = (polyOfList [32, 33, 34, 35, 36, 37, 38, 39, 40, 41, 42, 43, 44, 45, 46, 47], 48) ∧
      (keygen counterDist ⟨zeroPoly, zeroPoly⟩ ⟨zeroPoly⟩ 0 =
        (⟨polyOfList [32, 33, 34, 35, 36, 37, 38, 39, 40, 41, 42, 43, 44, 45, 46, 47],
          polyAdd (polyMul (polyOfList [32, 33, 34, 35, 36, 37, 38, 39, 40, 41, 42, 43, 44, 45, 46, 47])
              (polyOfList [3326, 3327, 3328, 0, 1, 2, 3, 3326, 3327, 3328, 0, 1, 2, 3, 3326, 3327]))
            (polyOfList [3328, 0, 1, 2, 3, 3326, 3327, 3328, 0, 1, 2, 3, 3326, 3327, 3328, 0])⟩,
          ⟨polyOfList [3326, 3327, 3328, 0, 1, 2, 3, 3326, 3327, 3328, 0, 1, 2, 3, 3326, 3327]⟩, 48) ∧
        ∀ k : Fin N, ((keygen counterDist ⟨zeroPoly, zeroPoly⟩ ⟨zeroPoly⟩ 0).1.b k).val =
          ((polyMul (keygen counterDist ⟨zeroPoly, zeroPoly⟩ ⟨zeroPoly⟩ 0).1.a
              (keygen counterDist ⟨zeroPoly, zeroPoly⟩ ⟨zeroPoly⟩ 0).2.1.s k).val +
            ((polyOfList [3328, 0, 1, 2, 3, 3326, 3327, 3328, 0, 1, 2, 3, 3326, 3327, 3328, 0]) k).val)
            % Q) :=
  ⟨by decide, by decide, by decide,
    keygen_spec counterDist ⟨zeroPoly, zeroPoly⟩ ⟨zeroPoly⟩ 0 _ _ _ 16 32 48
      (by decide) (by decide) (by decide)⟩

/-- Claim C4: for all polynomials `a, s, e, r, e1, e2`, with
`b = polyAdd (polyMul a s) e`, `u = polyAdd (polyMul a r) e1` and
`v = polyAdd (polyMul b r) e2`, the polynomial `polySub v (polyMul u s)` that
decapsulation hashes is, coefficient for coefficient,
`polySub (polyAdd (polyMul e r) e2) (polyMul e1 s)`: the value
`e*r + e2 - e1*s` of the ring, in which `a` does not occur. -/
theorem decapsulate_residual (a s e r e1 e2 b u v : Poly)
    (hb : b = polyAdd (polyMul a s) e)
    (hu : u = polyAdd (polyMul a r) e1)
    (hv : v = polyAdd (polyMul b r) e2) :
    polySub v (polyMul u s) = polySub (polyAdd (polyMul e r) e2) (polyMul e1 s) ∧
      ∀ k : Fin N, polySub v (polyMul u s) k =
        polySub (polyAdd (polyMul e r) e2) (polyMul e1 s) k := by
  have h : polySub v (polyMul u s) = polySub (polyAdd (polyMul e r) e2) (polyMul e1 s) := by
    rw [hv, hu, hb, residual_eq]
  exact ⟨h, fun k => by rw [h]⟩

set_option maxRecDepth 100000 in
/-- The residual identity at `a = 1000 x^5`, `s = -x`, `e = 2`, `r = 3 x^2`,
`e1 = -2 x^3`, `e2 = x^4`. -/
theorem decapsulate_residual_witness :
    polySub (polyAdd (polyMul (polyAdd (polyMul (monomial 5 1000) (monomial 1 3328)) (monomial 0 2))
          (monomial 2 3)) (monomial 4 1))
        (polyMul (polyAdd (polyMul (monomial 5 1000) (monomial 2 3)) (monomial 3 3327))
          (monomial 1 3328)) =
      polySub (polyAdd (polyMul (monomial 0 2) (monomial 2 3)) (monomial 4 1))
        (polyMul (monomial 3 3327) (monomial 1 3328)) :=
  (decapsulate_residual (monomial 5 1000) (monomial 1 3328) (monomial 0 2) (monomial 2 3)
    (monomial 3 3327) (monomial 4 1) _ _ _ rfl rfl rfl).1

set_option maxRecDepth 100000 in
/-- Claim C5: the two parties do not in general hash the same polynomial.
There are a key pair `(a, b = a*s + e, s)` and encapsulation noise
`r, e1, e2`, every noise coefficient being one `sampleNoise` stores for a
draw in `[-3, 3]`, for which the polynomial `polySub v (polyMul u s)` that
`decapsulate` passes to `hashPoly` differs from the polynomial `v` that
`encapsulate` passed to it, and the two byte arrays hashed differ as well. -/
theorem shared_secret_mismatch :
    ∃ a s e r e1 e2 : Poly,
      Canonical a ∧ (∀ k, NoiseCoeff (s k)) ∧ (∀ k, NoiseCoeff (e k)) ∧
      (∀ k, NoiseCoeff (r k)) ∧ (∀ k, NoiseCoeff (e1 k)) ∧ (∀ k, NoiseCoeff (e2 k)) ∧
      polySub (polyAdd (polyMul (polyAdd (polyMul a s) e) r) e2)
          (polyMul (polyAdd (polyMul a r) e1) s)
        ≠ polyAdd (polyMul (polyAdd (polyMul a s) e) r) e2 ∧
      hashPolyData (polySub (polyAdd (polyMul (polyAdd (polyMul a s) e) r) e2)
          (polyMul (polyAdd (polyMul a r) e1) s))
        ≠ hashPolyData (polyAdd (polyMul (polyAdd (polyMul a s) e) r) e2) := by
  have hne : polySub (polyAdd (polyMul (polyAdd (polyMul (monomial 5 1000) (monomial 1 3328))
          (monomial 0 2)) (monomial 2 3)) (monomial 4 1))
        (polyMul (polyAdd (polyMul (monomial 5 1000) (monomial 2 3)) (monomial 3 3327))
          (monomial 1 3328))
      ≠ polyAdd (polyMul (polyAdd (polyMul (monomial 5 1000) (monomial 1 3328))
          (monomial 0 2)) (monomial 2 3)) (monomial 4 1) := by
    rw [residual_eq]
    intro h
    have h8 : (polySub (polyAdd (polyMul (monomial 0 2) (monomial 2 3)) (monomial 4 1))
          (polyMul (monomial 3 3327) (monomial 1 3328)) 8).val
        = (polyAdd (polyMul (polyAdd (polyMul (monomial 5 1000) (monomial 1 3328))
          (monomial 0 2)) (monomial 2 3)) (monomial 4 1) 8).val := by rw [h]
    revert h8
    decide
  exact ⟨monomial 5 1000, monomial 1 3328, monomial 0 2, monomial 2 3, monomial 3 3327,
    monomial 4 1, by decide, by decide, by decide, by decide, by decide, by decide, hne,
    fun h => hne (hashPolyData_injective h)⟩

/-- Claim C6: `polyMul` is cyclic convolution modulo `Q`.  For all
polynomials `a`, `b` and every index `k`, coefficient `k` of `polyMul a b` is
the sum of `a[i] * b[j]` over all pairs `(i, j)` of indices with
`(i + j) mod N = k`, reduced to its non-negative remainder modulo `Q`. -/
theorem polyMul_cyclic_convolution (a b : Poly) (k : Fin N) :
    (polyMul a b k).val =
        (∑ p ∈ (Finset.univ : Finset (Fin N × Fin N)).filter
            (fun p => (p.1.val + p.2.val) % N = k.val),
          (a p.1).val * (b p.2).val) % Q ∧
      0 ≤ (polyMul a b k).val ∧ (polyMul a b k).val < Q := by
  refine ⟨?_, canonical_polyMul a b k⟩
  rw [polyMul_val, Finset.sum_filter, Fintype.sum_prod_type]
  congr 1
  apply Finset.sum_congr rfl
  intro i _
  apply Finset.sum_congr rfl
  intro j _
  unfold mulTerm mulIndex
  simp only [Fin.ext_iff]

/-- Claim C7: for all polynomials `a`, `b` with arbitrary 16-bit
coefficients, every coefficient of `polyAdd a b`, of `polySub a b` and of
`polyMul a b` lies in `[0, Q)`. -/
theorem ring_ops_canonical (a b : Poly) (k : Fin N) :
    (0 ≤ (polyAdd a b k).val ∧ (polyAdd a b k).val < Q) ∧
      (0 ≤ (polySub a b k).val ∧ (polySub a b k).val < Q) ∧
      (0 ≤ (polyMul a b k).val ∧ (polyMul a b k).val < Q) :=
  ⟨canonical_polyAdd a b k, canonical_polySub a b k, canonical_polyMul a b k⟩

/-- Claim C8: `modQ` is canonical reduction.  For every integer `x`, so for
every 32-bit `int` and the negative ones among them, `modQ x` lies in
`[0, Q)`, is congruent to `x` modulo `Q`, and is the only integer with these
two properties. -/
theorem modQ_canonical_reduction (x : Int) :
    0 ≤ (modQ x).val ∧ (modQ x).val < Q ∧ (modQ x).val ≡ x [ZMOD Q] ∧
      ∀ r : Int, 0 ≤ r → r < Q → r ≡ x [ZMOD Q] → r = (modQ x).val := by
  have h := modQ_val x
  refine ⟨by omega, by simp only [Q]; omega, ?_, ?_⟩
  · show (modQ x).val % 3329 = x % 3329
    omega
  · intro r h0 h1 h2
    have h3 : r % 3329 = x % 3329 := h2
    simp only [Q] at h1
    omega

/-- Claim C9: subtraction undoes addition.  For all polynomials `a`, `b`,
every coefficient of `polySub (polyAdd a b) b` is congruent modulo `Q` to
the coefficient of `a` at the same index, and the two polynomials are equal
when every coefficient of `a` lies in `[0, Q)`. -/
theorem polySub_polyAdd_cancel (a b : Poly) :
    (∀ k : Fin N, (polySub (polyAdd a b) b k).val ≡ (a k).val [ZMOD Q]) ∧
      ((∀ k : Fin N, 0 ≤ (a k).val ∧ (a k).val < Q) → polySub (polyAdd a b) b = a) := by
  have hc : ∀ k : Fin N, (polySub (polyAdd a b) b k).val % 3329 = (a k).val % 3329 := by
    intro k
    rw [polySub_val, polyAdd_val]
    omega
  exact ⟨hc, fun ha => canonical_ext (canonical_polySub _ _) ha hc⟩

/-- Cancellation at `a = 5 x^3`, `b = -7 x^3`. -/
theorem polySub_polyAdd_cancel_witness :
    (∀ k : Fin N, 0 ≤ (monomial 3 5 k).val ∧ (monomial 3 5 k).val < Q) ∧
      polySub (polyAdd (monomial 3 5) (monomial 3 (-7))) (monomial 3 (-7)) = monomial 3 5 :=
  ⟨by decide, (polySub_polyAdd_cancel (monomial 3 5) (monomial 3 (-7))).2 (by decide)⟩

/-- Claim C10: `polyAdd` is associative.  For all polynomials `a`, `b`, `c`
the arrays `polyAdd (polyAdd a b) c` and `polyAdd a (polyAdd b c)` are equal,
the inner sum being reduced modulo `Q` before the outer addition. -/
theorem polyAdd_assoc (a b c : Poly) :
    polyAdd (polyAdd a b) c = polyAdd a (polyAdd b c) := by
  funext k
  apply I16.ext
  rw [polyAdd_val, polyAdd_val, polyAdd_val, polyAdd_val]
  omega

/-- Claim C11: multiplication wraps indices modulo `N`.  For all indices
`i`, `j`, with `e_i` the polynomial whose coefficient at `i` is `1` and whose
other coefficients are `0`, `polyMul e_i e_j` is `e_((i + j) mod N)`: its
coefficient at index `(i + j) mod N` is `1`, every other one is `0`. -/
theorem polyMul_basis (i j : Fin N) :
    polyMul (monomial i 1) (monomial j 1)
        = monomial ⟨(i.val + j.val) % N, Nat.mod_lt _ (by decide)⟩ 1 ∧
      ∀ k : Fin N, (polyMul (monomial i 1) (monomial j 1) k).val
        = if k.val = (i.val + j.val) % N then 1 else 0 := by
  have h := polyMul_basis_eq i j
  refine ⟨h, ?_⟩
  intro k
  rw [h]
  unfold monomial mulIndex
  by_cases hk : k.val = (i.val + j.val) % N
  · rw [if_pos (Fin.ext hk), if_pos hk]; rfl
  · rw [if_neg (fun hh => hk (congrArg Fin.val hh)), if_neg hk]; rfl

/-- Claim C12: for every `bound` with `0 ≤ bound < Q` and draws
`d 0, …, d (N-1)` of the generator that all lie in `[-bound, bound]`,
coefficient `i` of `sampleNoise bound` is `d i` when `d i ≥ 0` and `Q + d i`
when `d i < 0`; so every coefficient `c` lies in `[0, Q)` with `c ≤ bound` or
`c ≥ Q - bound`, and for `bound = 3` it is one of
`0, 1, 2, 3, 3326, 3327, 3328`. -/
theorem sampleNoise_spec {G : Type} (dist : I16 → I16 → G → I16 × G) (bound : Int) (g : G)
    (d : Fin N → I16)
    (hdraw : ∀ i : Fin N,
      d i = drawValue dist (I16.ofInt (wrapInt32 (-bound))) (I16.ofInt bound) g i.val)
    (h0 : 0 ≤ bound) (h1 : bound < Q)
    (hd : ∀ i : Fin N, -bound ≤ (d i).val ∧ (d i).val ≤ bound) :
    ∀ i : Fin N,
      ((sampleNoise dist bound g).1 i).val = (if 0 ≤ (d i).val then (d i).val else Q + (d i).val) ∧
      0 ≤ ((sampleNoise dist bound g).1 i).val ∧ ((sampleNoise dist bound g).1 i).val < Q ∧
      (((sampleNoise dist bound g).1 i).val ≤ bound ∨
        Q - bound ≤ ((sampleNoise dist bound g).1 i).val) ∧
      (bound = 3 → ((sampleNoise dist bound g).1 i).val = 0 ∨
        ((sampleNoise dist bound g).1 i).val = 1 ∨ ((sampleNoise dist bound g).1 i).val = 2 ∨
        ((sampleNoise dist bound g).1 i).val = 3 ∨ ((sampleNoise dist bound g).1 i).val = 3326 ∨
        ((sampleNoise dist bound g).1 i).val = 3327 ∨
        ((sampleNoise dist bound g).1 i).val = 3328) := by
  intro i
  have hc := (sampleNoise_apply dist bound g).2 i
  rw [← hdraw i] at hc
  have hv := hd i
  rw [hc, modQ_val]
  simp only [Q] at *
  split <;> refine ⟨by omega, by omega, by omega, by omega, fun hb => by omega⟩

set_option maxRecDepth 100000 in
/-- The statement of `sampleNoise 3` run on the counter generator from state
`0`, whose draws are `-3, -2, -1, 0, 1, 2, 3, -3, …`. -/
theorem sampleNoise_spec_witness :
    ((0 : Int) ≤ 3 ∧ (3 : Int) < Q ∧
      ∀ i : Fin N, -3 ≤ (polyOfList [-3, -2, -1, 0, 1, 2, 3, -3, -2, -1, 0, 1, 2, 3, -3, -2] i).val ∧
        (polyOfList [-3, -2, -1, 0, 1, 2, 3, -3, -2, -1, 0, 1, 2, 3, -3, -2] i).val ≤ 3) ∧
      ∀ i : Fin N,
        ((sampleNoise counterDist 3 0).1 i).val
          = (if 0 ≤ (polyOfList [-3, -2, -1, 0, 1, 2, 3, -3, -2, -1, 0, 1, 2, 3, -3, -2] i).val
            then (polyOfList [-3, -2, -1, 0, 1, 2, 3, -3, -2, -1, 0, 1, 2, 3, -3, -2] i).val
            else Q + (polyOfList [-3, -2, -1, 0, 1, 2, 3, -3, -2, -1, 0, 1, 2, 3, -3, -2] i).val) ∧
        0 ≤ ((sampleNoise counterDist 3 0).1 i).val ∧ ((sampleNoise counterDist 3 0).1 i).val < Q ∧
        (((sampleNoise counterDist 3 0).1 i).val ≤ 3 ∨
          Q - 3 ≤ ((sampleNoise counterDist 3 0).1 i).val) ∧
        ((3 : Int) = 3 → ((sampleNoise counterDist 3 0).1 i).val = 0 ∨
          ((sampleNoise counterDist 3 0).1 i).val = 1 ∨ ((sampleNoise counterDist 3 0).1 i).val = 2 ∨
          ((sampleNoise counterDist 3 0).1 i).val = 3 ∨
          ((sampleNoise counterDist 3 0).1 i).val = 3326 ∨
          ((sampleNoise counterDist 3 0).1 i).val = 3327 ∨
          ((sampleNoise counterDist 3 0).1 i).val = 3328) :=
  ⟨⟨by decide, by decide, by decide⟩,
    sampleNoise_spec counterDist 3 0
      (polyOfList [-3, -2, -1, 0, 1, 2, 3, -3, -2, -1, 0, 1, 2, 3, -3, -2])
      (by decide) (by decide) (by decide) (by decide)⟩

/-- Claim C13: for every polynomial `p`, the byte array `hashPoly` hands to
the digest function has `2 * N = 32` bytes, and for every index `i` its bytes
`2 i` and `2 i + 1` are the low and the high byte of the 16-bit coefficient
`p[i]` (little-endian two's complement). -/
theorem hashPolyData_layout (sha256 : List Nat → List Nat) (p : Poly) :
    hashPoly sha256 p = sha256 (hashPolyData p) ∧
      (hashPolyData p).length = 2 * N ∧
      ∀ i : Fin N,
        (hashPolyData p)[2 * i.val]? = some ((p i).val % 256).toNat ∧
        (hashPolyData p)[2 * i.val + 1]? = some (((p i).val / 256) % 256).toNat := by
  obtain ⟨h1, _, h3⟩ := foldl_append_layout (fun i => int16Bytes (p i))
    (fun i => int16Bytes_length (p i)) (List.finRange N) []
  refine ⟨rfl, ?_, ?_⟩
  · unfold hashPolyData forLoop
    rw [h1, List.length_finRange]; rfl
  · intro i
    have hi : i.val < (List.finRange N).length := by rw [List.length_finRange]; exact i.isLt
    have e0 := h3 i.val hi 0 (by decide)
    have e1 := h3 i.val hi 1 (by decide)
    have hget : (List.finRange N)[i.val] = i := by
      rw [List.getElem_finRange]; rfl
    simp only [hget, List.length_nil, Nat.zero_add, Nat.add_zero] at e0 e1
    exact ⟨e0.trans (by rw [int16Bytes_eq]; rfl), e1.trans (by rw [int16Bytes_eq]; rfl)⟩

/-- Claim C14: the serialization inside `hashPoly` is injective.  Two
polynomials that differ in a coefficient are serialized to different byte
arrays, so equal derived secrets for them are a collision of the digest
function; and equal polynomials give equal byte arrays and equal secrets. -/
theorem hashPoly_separates (sha256 : List Nat → List Nat) (p q : Poly) :
    ((∃ k : Fin N, p k ≠ q k) → hashPolyData p ≠ hashPolyData q) ∧
      ((∃ k : Fin N, p k ≠ q k) → hashPoly sha256 p = hashPoly sha256 q →
        hashPolyData p ≠ hashPolyData q ∧ sha256 (hashPolyData p) = sha256 (hashPolyData q)) ∧
      (p = q → hashPolyData p = hashPolyData q ∧ hashPoly sha256 p = hashPoly sha256 q) := by
  have hne : (∃ k : Fin N, p k ≠ q k) → hashPolyData p ≠ hashPolyData q := by
    rintro ⟨k, hk⟩ h
    exact hk (congrFun (hashPolyData_injective h) k)
  exact ⟨hne, fun hd hh => ⟨hne hd, hh⟩, fun h => by rw [h]; exact ⟨rfl, rfl⟩⟩

/-- Two polynomials that differ at index `3` only, with the identity in place
of the digest function. -/
theorem hashPoly_separates_witness :
    (∃ k : Fin N, monomial 3 5 k ≠ monomial 3 6 k) ∧
      hashPolyData (monomial 3 5) ≠ hashPolyData (monomial 3 6) :=
  ⟨⟨3, by decide⟩, (hashPoly_separates (fun d => d) (monomial 3 5) (monomial 3 6)).1 ⟨3, by decide⟩⟩

/-- Claim C15: no integer overflow in the ring operations.  For all
polynomials `a`, `b` with arbitrary 16-bit coefficients, the values
`a[i] + b[i]`, `a[i] - b[i]`, `a[i] * b[j]` and `r[k] + a[i] * b[j]` lie in the
signed 32-bit range (so the 32-bit wrap leaves them unchanged), the
accumulator of `polyMul` starts in `[0, Q)` and every loop step keeps it
there, and the value `modQ` computes fits an `int16_t` without truncation. -/
theorem ring_ops_no_overflow (a b r : Poly) (i j k : Fin N) (x : Int) :
    (-2147483648 ≤ (a i).val + (b i).val ∧ (a i).val + (b i).val < 2147483648 ∧
        wrapInt32 ((a i).val + (b i).val) = (a i).val + (b i).val) ∧
      (-2147483648 ≤ (a i).val - (b i).val ∧ (a i).val - (b i).val < 2147483648 ∧
        wrapInt32 ((a i).val - (b i).val) = (a i).val - (b i).val) ∧
      (-2147483648 ≤ (a i).val * (b j).val ∧ (a i).val * (b j).val < 2147483648 ∧
        wrapInt32 ((a i).val * (b j).val) = (a i).val * (b j).val) ∧
      (-2147483648 ≤ (r k).val + (a i).val * (b j).val ∧
        (r k).val + (a i).val * (b j).val < 2147483648 ∧
        wrapInt32 ((r k).val + wrapInt32 ((a i).val * (b j).val))
          = (r k).val + (a i).val * (b j).val) ∧
      (Canonical zeroPoly ∧ (Canonical r → Canonical (mulStep a b i j r))) ∧
      (-32768 ≤ (if Int.tmod x Q < 0 then Int.tmod x Q + Q else Int.tmod x Q) ∧
        (if Int.tmod x Q < 0 then Int.tmod x Q + Q else Int.tmod x Q) < 32768 ∧
        (modQ x).val = (if Int.tmod x Q < 0 then Int.tmod x Q + Q else Int.tmod x Q)) := by
  have ha := (a i).property
  have hb := (b i).property
  have hr := (r k).property
  have hm := I16.mul_range (a i) (b j)
  obtain ⟨t1, t2, _⟩ := tmod_Q_spec x
  have hw := wrapInt32_of_range ((a i).val * (b j).val) (by omega) (by omega)
  refine ⟨⟨by omega, by omega, wrapInt32_of_range _ (by omega) (by omega)⟩,
    ⟨by omega, by omega, wrapInt32_of_range _ (by omega) (by omega)⟩,
    ⟨by omega, by omega, hw⟩,
    ⟨by omega, by omega, by rw [hw]; exact wrapInt32_of_range _ (by omega) (by omega)⟩,
    ⟨canonical_zeroPoly, canonical_mulStep a b i j r⟩, ?_⟩
  simp only [Q]
  refine ⟨by split <;> omega, by split <;> omega, ?_⟩
  unfold modQ
  simp only [I16.ofInt_val, Q]
  split
  · rw [wrapInt32_of_range _ (by omega) (by omega), wrapInt16_of_range _ (by omega) (by omega)]
  · rw [wrapInt16_of_range _ (by omega) (by omega)]

/-- Claim C18: the exact condition for agreement of the two secrets.  For
every ciphertext `(u, v)` whose `v` has all coefficients in `[0, Q)`, as the
`v` of every `encapsulate` output has, and every private key `s`, the
polynomial `polySub v (polyMul u s)` that `decapsulate` hashes equals `v` if
and only if `polyMul u s` is the zero polynomial; in that case `decapsulate`
returns `hashPoly v`, and `polyMul u s` is zero for `s = 0`. -/
theorem agreement_iff_product_zero {G : Type} (dist : I16 → I16 → G → I16 × G)
    (sha256 : List Nat → List Nat) (u v s : Poly) (g : G)
    (hv : ∀ k : Fin N, 0 ≤ (v k).val ∧ (v k).val < Q) :
    (polySub v (polyMul u s) = v ↔ polyMul u s = zeroPoly) ∧
      (polyMul u s = zeroPoly → (decapsulate sha256 ⟨u, v⟩ ⟨s⟩ g).1.key = hashPoly sha256 v) ∧
      polyMul u zeroPoly = zeroPoly ∧
      ∀ (pk : PublicKey) (ss : SharedSecret) (k : Fin N),
        0 ≤ ((encapsulate dist sha256 pk ss g).1.v k).val ∧
          ((encapsulate dist sha256 pk ss g).1.v k).val < Q := by
  have hiff : polySub v (polyMul u s) = v ↔ polyMul u s = zeroPoly := by
    constructor
    · intro h
      funext k
      apply I16.ext
      have h1 : (polySub v (polyMul u s) k).val = (v k).val := by rw [h]
      rw [polySub_val] at h1
      have h2 := hv k
      have h3 := canonical_polyMul u s k
      rw [zeroPoly_val]
      simp only [Q] at h2 h3
      omega
    · intro h
      rw [h]
      apply canonical_ext (canonical_polySub _ _) hv
      intro k
      rw [polySub_val, zeroPoly_val]
      omega
  refine ⟨hiff, ?_, polyMul_zeroPoly u, fun pk ss k => canonical_polyAdd _ _ k⟩
  intro h
  show hashPoly sha256 (polySub v (polyMul u s)) = hashPoly sha256 v
  rw [hiff.2 h]

set_option maxRecDepth 100000 in
/-- The agreement condition at `u = 7 x`, `v = 9 x^2`, `s = 0`, on the counter
generator with the identity in place of the digest function. -/
theorem agreement_iff_product_zero_witness :
    (∀ k : Fin N, 0 ≤ (monomial 2 9 k).val ∧ (monomial 2 9 k).val < Q) ∧
      (polySub (monomial 2 9) (polyMul (monomial 1 7) zeroPoly) = monomial 2 9 ↔
        polyMul (monomial 1 7) zeroPoly = zeroPoly) :=
  ⟨by decide, (agreement_iff_product_zero counterDist (fun d => d) (monomial 1 7) (monomial 2 9)
    zeroPoly 0 (by decide)).1⟩

/-- Claim C19: `polyMul` is commutative.  For all polynomials `a`, `b` with
arbitrary 16-bit coefficients the arrays `polyMul a b` and `polyMul b a` are
equal, although the two calls accumulate and reduce the products in
different orders. -/
theorem polyMul_comm (a b : Poly) : polyMul a b = polyMul b a := by
  apply toAlg_injOn (canonical_polyMul _ _) (canonical_polyMul _ _)
  rw [toAlg_polyMul, toAlg_polyMul, mul_comm]

end PQCryptoLite

namespace FastRSA

/-! ## Modular exponentiation -/

theorem wrapU64_of_lt (x : Nat) (h : x < 18446744073709551616) : wrapU64 x = x :=
  Nat.mod_eq_of_lt h

theorem modExpLoop_eq (mod : Nat) (h2 : 2 ≤ mod) (h32 : mod ≤ 4294967296) :
    ∀ (fuel exp result base : Nat), exp ≤ fuel → result < mod → base < mod →
      modExpLoop mod fuel result base exp = result * base ^ exp % mod := by
  have hprod : ∀ x y : Nat, x < mod → y < mod → wrapU64 (x * y) = x * y := by
    intro x y hx hy
    apply wrapU64_of_lt
    have hx2 : x < 4294967296 := by omega
    have hy2 : y < 4294967296 := by omega
    nlinarith
  intro fuel
  induction fuel with
  | zero =>
    intro exp result base he hr _
    have : exp = 0 := by omega
    subst this
    simp [modExpLoop, Nat.mod_eq_of_lt hr]
  | succ f ih =>
    intro exp result base he hr hb
    unfold modExpLoop
    by_cases hpos : exp > 0
    · rw [if_pos hpos, Nat.and_one_is_mod, Nat.shiftRight_eq_div_pow, hprod base base hb hb]
      have hhalf : exp / 2 ^ 1 ≤ f := by
        rw [pow_one]; omega
      have hbase : base * base % mod < mod := Nat.mod_lt _ (by omega)
      have hexp : exp = 2 * (exp / 2 ^ 1) + exp % 2 := by rw [pow_one]; omega
      have hsq : (base * base % mod) ^ (exp / 2 ^ 1) ≡ (base * base) ^ (exp / 2 ^ 1) [MOD mod] :=
        (Nat.mod_modEq _ _).pow _
      by_cases hodd : exp % 2 ≠ 0
      · rw [if_pos hodd, hprod result base hr hb,
          ih _ _ _ hhalf (Nat.mod_lt _ (by omega)) hbase]
        have h1 : exp % 2 = 1 := by omega
        have key : result * base * (base * base) ^ (exp / 2 ^ 1) = result * base ^ exp := by
          conv_rhs => rw [hexp, h1]
          rw [pow_add, pow_mul, pow_one, sq]
          ring
        rw [← key]
        exact ((Nat.mod_modEq _ _).mul hsq)
      · rw [if_neg hodd, ih _ _ _ hhalf hr hbase]
        have h0 : exp % 2 = 0 := by omega
        have key : result * (base * base) ^ (exp / 2 ^ 1) = result * base ^ exp := by
          conv_rhs => rw [hexp, h0]
          rw [add_zero, pow_mul, sq]
        rw [← key]
        exact ((Nat.ModEq.refl result).mul hsq)
    · have : exp = 0 := by omega
      subst this
      simp [Nat.mod_eq_of_lt hr]

/-- For a modulus of at most `2^32` no product in `modExp` exceeds 64 bits,
and `modExp` is modular exponentiation. -/
theorem modExp_eq_pow_mod (base exp mod : Nat) (h2 : 2 ≤ mod) (h32 : mod ≤ 4294967296) :
    modExp base exp mod = base ^ exp % mod := by
  unfold modExp
  rw [modExpLoop_eq mod h2 h32 exp exp 1 (base % mod) (le_refl _) (by omega)
    (Nat.mod_lt _ (by omega)), one_mul, ← Nat.pow_mod]

/-! ## The loops of `encrypt` and `decrypt` -/

theorem encryptLoop_done (message : List Nat) (key : Key) (fuel i : Nat) (result : List Nat)
    (h : message.length ≤ i) : encryptLoop message key fuel i result = result := by
  cases fuel with
  | zero => rfl
  | succ f => unfold encryptLoop; rw [if_neg (by omega)]

/-- From index `pre.length` on, the loop of `encrypt` appends the 8-byte
blocks of the encrypted block values of the rest of the message. -/
theorem encryptLoop_eq (key : Key) :
    ∀ (fuel : Nat) (pre rest result : List Nat), rest.length ≤ fuel →
      encryptLoop (pre ++ rest) key fuel pre.length result
        = result ++ (messageBlocks rest).flatMap (fun m => u64Bytes (modExp m key.exp key.n)) := by
  intro fuel
  induction fuel with
  | zero =>
    intro pre rest result h
    have : rest = [] := List.length_eq_zero.1 (by omega)
    subst this
    simp [encryptLoop, messageBlocks]
  | succ f ih =>
    intro pre rest result h
    match rest, h with
    | [], _ =>
      rw [encryptLoop_done _ _ _ _ _ (by simp)]
      simp [messageBlocks]
    | [b], _ =>
      unfold encryptLoop
      rw [if_pos (by simp), if_neg (by simp), encryptLoop_done _ _ _ _ _ (by simp)]
      simp [messageBlocks, List.getD_append_right]
    | b0 :: b1 :: rest2, h =>
      unfold encryptLoop
      rw [if_pos (by simp), if_pos (by simp)]
      have e : pre ++ b0 :: b1 :: rest2 = (pre ++ [b0, b1]) ++ rest2 := by simp
      have hl : pre.length + 2 = (pre ++ [b0, b1]).length := by simp
      have g0 : (pre ++ b0 :: b1 :: rest2).getD pre.length 0 = b0 := by
        rw [List.getD_append_right _ _ _ _ (le_refl _)]; simp
      have g1 : (pre ++ b0 :: b1 :: rest2).getD (pre.length + 1) 0 = b1 := by
        rw [List.getD_append_right _ _ _ _ (by omega)]; simp
      rw [g0, g1, e, hl, ih (pre ++ [b0, b1]) rest2 _ (by simp at h; omega)]
      simp [messageBlocks]

theorem encrypt_eq (message : List Nat) (key : Key) :
    encrypt message key
      = (messageBlocks message).flatMap (fun m => u64Bytes (modExp m key.exp key.n)) := by
  have := encryptLoop_eq key message.length [] message [] (le_refl _)
  simpa [encrypt] using this

theorem getD_append_add (pre l : List Nat) (k : Nat) :
    (pre ++ l).getD (pre.length + k) 0 = l.getD k 0 := by
  rw [List.getD_append_right _ _ _ _ (Nat.le_add_right _ _), Nat.add_sub_cancel_left]

theorem readU64_u64Bytes (pre rest : List Nat) (c : Nat) (hc : c < 18446744073709551616) :
    readU64 (pre ++ (u64Bytes c ++ rest)) pre.length = c := by
  unfold readU64
  have h0 := getD_append_add pre (u64Bytes c ++ rest) 0
  rw [Nat.add_zero] at h0
  rw [h0, getD_append_add, getD_append_add, getD_append_add, getD_append_add, getD_append_add,
    getD_append_add, getD_append_add]
  simp only [u64Bytes, List.cons_append, List.getD_cons_zero, List.getD_cons_succ]
  omega

/-- From index `pre.length` on, the loop of `decrypt` appends the bytes of
the decrypted blocks, one 8-byte block after the other. -/
theorem decryptLoop_eq (key : Key) :
    ∀ (cs pre result : List Nat) (fuel : Nat), cs.length ≤ fuel →
      (∀ c ∈ cs, c < 18446744073709551616) →
      decryptLoop (pre ++ cs.flatMap u64Bytes) key fuel pre.length result
        = result ++ cs.flatMap (fun c => decryptBlock (modExp c key.exp key.n)) := by
  intro cs
  induction cs with
  | nil =>
    intro pre result fuel _ _
    cases fuel with
    | zero => simp [decryptLoop]
    | succ f => unfold decryptLoop; simp
  | cons c cs ih =>
    intro pre result fuel hf hc
    cases fuel with
    | zero => simp at hf
    | succ f =>
      unfold decryptLoop
      have hlen : pre.length < (pre ++ (c :: cs).flatMap u64Bytes).length := by
        simp [u64Bytes]
      rw [if_pos hlen, List.flatMap_cons, readU64_u64Bytes pre _ c (hc c (List.mem_cons_self _ _))]
      have e : pre ++ (u64Bytes c ++ cs.flatMap u64Bytes) = (pre ++ u64Bytes c) ++ cs.flatMap u64Bytes := by
        simp
      have hl : pre.length + 8 = (pre ++ u64Bytes c).length := by simp [u64Bytes]
      rw [e, hl, ih (pre ++ u64Bytes c) _ f (by simp at hf; omega)
        (fun x hx => hc x (List.mem_cons_of_mem _ hx))]
      simp

theorem decrypt_blocks (cs : List Nat) (key : Key) (hc : ∀ c ∈ cs, c < 18446744073709551616) :
    decrypt (cs.flatMap u64Bytes) key
      = cs.flatMap (fun c => decryptBlock (modExp c key.exp key.n)) := by
  have hlen : cs.length ≤ (cs.flatMap u64Bytes).length := by
    clear hc
    induction cs with
    | nil => simp
    | cons c cs ih => simp [u64Bytes] at ih ⊢; omega
  have := decryptLoop_eq key cs [] [] (cs.flatMap u64Bytes).length hlen hc
  simpa [decrypt] using this

/-! ## Block values -/

theorem block_single (b : Nat) (hb : b < 256) : wrapU64 ((b % 256) <<< 8) = 256 * b := by
  rw [Nat.mod_eq_of_lt hb, Nat.shiftLeft_eq, wrapU64_of_lt _ (by omega)]
  omega

theorem block_pair (b0 b1 : Nat) (h0 : b0 < 256) (h1 : b1 < 256) :
    wrapU64 ((b0 % 256) <<< 8) ||| (b1 % 256) = 256 * b0 + b1 := by
  rw [block_single b0 h0, Nat.mod_eq_of_lt h1]
  exact (Nat.mul_add_lt_is_or (show b1 < 2 ^ 8 by omega) b0).symm

theorem decryptBlock_pair (b0 b1 : Nat) (h0 : b0 < 256) (h1 : b1 < 256) :
    decryptBlock (256 * b0 + b1) = if b1 ≠ 0 then [b0, b1] else [b0] := by
  have hand : ∀ x : Nat, x &&& 255 = x % 256 := fun x => Nat.and_pow_two_sub_one_eq_mod x 8
  have hlow : (256 * b0 + b1) % 256 = b1 := by omega
  have hhigh : (256 * b0 + b1) / 2 ^ 8 % 256 = b0 := by
    have : (256 * b0 + b1) / 2 ^ 8 = b0 := by
      rw [show (2 : Nat) ^ 8 = 256 by norm_num]; omega
    rw [this]; omega
  unfold decryptBlock
  rw [hand, hand, Nat.shiftRight_eq_div_pow, hlow, hhigh]

/-- With exponents that undo each other on every value below `65536`,
decrypting the encrypted block value gives the block value back. -/
theorem modExp_round_trip (n e d m : Nat) (hn1 : 65536 ≤ n) (hn2 : n ≤ 4294967296)
    (hed : ∀ x, x < 65536 → x ^ (e * d) % n = x % n) (hm : m < 65536) :
    modExp (modExp m e n) d n = m := by
  rw [modExp_eq_pow_mod m e n (by omega) hn2, modExp_eq_pow_mod _ d n (by omega) hn2,
    ← Nat.pow_mod, ← pow_mul, hed m hm, Nat.mod_eq_of_lt (by omega)]

theorem flatMap_decrypt_blocks (n e d : Nat) (hn1 : 65536 ≤ n) (hn2 : n ≤ 4294967296)
    (hed : ∀ x, x < 65536 → x ^ (e * d) % n = x % n) :
    ∀ (k : Nat) (msg : List Nat), msg.length ≤ k → (∀ b ∈ msg, b < 256) →
      (messageBlocks msg).flatMap (fun m => decryptBlock (modExp (modExp m e n) d n))
        = dropOddZeros msg := by
  intro k
  induction k using Nat.strong_induction_on with
  | _ k ih =>
    intro msg hk hb
    match msg, hk, hb with
    | [], _, _ => simp [messageBlocks, dropOddZeros]
    | [b], _, hb =>
      have h : b < 256 := hb b (List.mem_cons_self _ _)
      have hdec := decryptBlock_pair b 0 h (by omega)
      simp only [messageBlocks, dropOddZeros, List.flatMap_cons, List.flatMap_nil,
        List.append_nil, block_single b h]
      rw [modExp_round_trip n e d _ hn1 hn2 hed (by omega)]
      simpa using hdec
    | b0 :: b1 :: rest, hk, hb =>
      have h0 : b0 < 256 := hb b0 (List.mem_cons_self _ _)
      have h1 : b1 < 256 := hb b1 (List.mem_cons_of_mem _ (List.mem_cons_self _ _))
      have hrest := ih rest.length (by simp at hk; omega) rest (le_refl _)
        (fun b hmem => hb b (List.mem_cons_of_mem _ (List.mem_cons_of_mem _ hmem)))
      simp only [messageBlocks, dropOddZeros, List.flatMap_cons, block_pair b0 b1 h0 h1]
      rw [modExp_round_trip n e d _ hn1 hn2 hed (by omega), hrest,
        decryptBlock_pair b0 b1 h0 h1]
      split <;> simp

theorem dropOddZeros_length_le : ∀ (k : Nat) (msg : List Nat), msg.length ≤ k →
    (dropOddZeros msg).length ≤ msg.length := by
  intro k
  induction k using Nat.strong_induction_on with
  | _ k ih =>
    intro msg hk
    match msg, hk with
    | [], _ => simp [dropOddZeros]
    | [b], _ => simp [dropOddZeros]
    | b0 :: b1 :: rest, hk =>
      have := ih rest.length (by simp at hk; omega) rest (le_refl _)
      simp only [dropOddZeros]
      split <;> simp <;> omega

/-- Dropping the zero bytes at odd indices changes nothing exactly when there
are none. -/
theorem dropOddZeros_eq_iff : ∀ (k : Nat) (msg : List Nat), msg.length ≤ k →
    (dropOddZeros msg = msg ↔ ∀ i : Nat, i % 2 = 1 → msg[i]? ≠ some 0) := by
  intro k
  induction k using Nat.strong_induction_on with
  | _ k ih =>
    intro msg hk
    match msg, hk with
    | [], _ => simp [dropOddZeros]
    | [b], _ =>
      simp only [dropOddZeros, true_iff]
      intro i hi
      cases i with
      | zero => simp at hi
      | succ j => simp
    | b0 :: b1 :: rest, hk =>
      have hrest := ih rest.length (by simp at hk; omega) rest (le_refl _)
      simp only [dropOddZeros]
      by_cases hz : b1 = 0
      · subst hz
        rw [if_neg (by simp)]
        constructor
        · intro h
          have hl := dropOddZeros_length_le rest.length rest (le_refl _)
          have := congrArg List.length h
          simp at this
          omega
        · intro h
          exact absurd (by simp) (h 1 (by decide))
      · rw [if_pos hz]
        constructor
        · intro h i hi
          have hr : dropOddZeros rest = rest := by simpa using h
          match i, hi with
          | 1, _ => simpa using hz
          | j + 2, hj =>
            rw [List.getElem?_cons_succ, List.getElem?_cons_succ]
            exact hrest.1 hr j (by omega)
        · intro h
          have : dropOddZeros rest = rest := by
            apply hrest.2
            intro j hj
            have := h (j + 2) (by omega)
            rwa [List.getElem?_cons_succ, List.getElem?_cons_succ] at this
          rw [this]

theorem messageBlocks_length : ∀ (k : Nat) (msg : List Nat), msg.length ≤ k →
    (messageBlocks msg).length = (msg.length + 1) / 2 := by
  intro k
  induction k using Nat.strong_induction_on with
  | _ k ih =>
    intro msg hk
    match msg, hk with
    | [], _ => simp [messageBlocks]
    | [b], _ => simp [messageBlocks]
    | b0 :: b1 :: rest, hk =>
      have := ih rest.length (by simp at hk; omega) rest (le_refl _)
      simp only [messageBlocks, List.length_cons, this]
      omega

theorem flatMap_u64Bytes_length {α : Type} (f : α → Nat) (l : List α) :
    (l.flatMap (fun m => u64Bytes (f m))).length = 8 * l.length := by
  induction l with
  | nil => simp
  | cons x t ih => simp [u64Bytes] at ih ⊢; omega

theorem flatMap_map_u64Bytes (f : Nat → Nat) (l : List Nat) :
    l.flatMap (fun m => u64Bytes (f m)) = (l.map f).flatMap u64Bytes := by
  induction l with
  | nil => simp
  | cons x t ih => simp [ih]

theorem flatMap_map_decryptBlock (f g : Nat → Nat) (l : List Nat) :
    (l.map f).flatMap (fun c => decryptBlock (g c)) = l.flatMap (fun m => decryptBlock (g (f m))) := by
  induction l with
  | nil => simp
  | cons x t ih => simp [ih]

/-- Decrypting an encrypted message removes its zero bytes at odd indices
and keeps everything else. -/
theorem decrypt_encrypt_eq (n e d : Nat) (msg : List Nat) (hn1 : 65536 ≤ n)
    (hn2 : n ≤ 4294967296) (hed : ∀ x, x < 65536 → x ^ (e * d) % n = x % n)
    (hmsg : ∀ b ∈ msg, b < 256) :
    decrypt (encrypt msg ⟨n, e⟩) ⟨n, d⟩ = dropOddZeros msg := by
  rw [encrypt_eq, flatMap_map_u64Bytes, decrypt_blocks, flatMap_map_decryptBlock]
  · exact flatMap_decrypt_blocks n e d hn1 hn2 hed msg.length msg (le_refl _) hmsg
  · intro c hc
    obtain ⟨m, _, rfl⟩ := List.mem_map.1 hc
    show modExp m e n < 18446744073709551616
    rw [modExp_eq_pow_mod m e n (by omega) hn2]
    have := Nat.mod_lt (m ^ e) (show n > 0 by omega)
    omega

/-- With `n = 65537`, `e = 3` and `d = 43691` the exponents undo each other:
`65537` is prime and `3 * 43691 = 2 * 65536 + 1`. -/
theorem fermat_65537 (m : Nat) : m ^ (3 * 43691) % 65537 = m % 65537 := by
  have hp : Nat.Prime 65537 := by norm_num
  haveI : Fact (Nat.Prime 65537) := ⟨hp⟩
  have hz : ((m : ZMod 65537)) ^ (3 * 43691) = (m : ZMod 65537) := by
    by_cases h0 : (m : ZMod 65537) = 0
    · rw [h0]; simp
    · have h1 : (m : ZMod 65537) ^ (65537 - 1) = 1 := ZMod.pow_card_sub_one_eq_one h0
      have e : 3 * 43691 = (65537 - 1) * 2 + 1 := by norm_num
      rw [e, pow_add, pow_mul, h1, one_pow, one_mul, pow_one]
  have hc : ((m ^ (3 * 43691) : Nat) : ZMod 65537) = ((m : Nat) : ZMod 65537) := by
    rw [Nat.cast_pow]; exact hz
  exact (ZMod.natCast_eq_natCast_iff' _ _ _).1 hc

/-! ## The claims about `FastRSA` -/

/-- Claim C16: on a modulus above `2^32` the products of `modExp` exceed 64
bits and wrap.  For `base = 2^32`, `exp = 2` and `mod = 2^64 - 59`, `modExp`
returns `0`, while `base^exp mod mod` is `59`. -/
theorem modExp_wraps_above_32_bits :
    modExp 4294967296 2 18446744073709551557 = 0 ∧
      4294967296 ^ 2 % 18446744073709551557 = 59 ∧
      modExp 4294967296 2 18446744073709551557 ≠ 4294967296 ^ 2 % 18446744073709551557 := by
  decide

/-- Claim C17: the result of `modInverse` is not corrected when the
coefficient it computes is negative, because the test `x1 < 0` is on an
unsigned value.  For the primes `11` and `13`, `generateKeys` chooses `e = 7`
with `phi = 120`, and `modInverse 7 120` is `2^64 - 17`, which is not below
`120` and whose product with `7` leaves `113` modulo `120`; the inverse is
`103`. -/
theorem modInverse_keeps_wrapped_negative :
    gcd 7 120 = 1 ∧
      modInverse 7 120 = 18446744073709551599 ∧
      ¬ modInverse 7 120 < 120 ∧
      7 * modInverse 7 120 % 120 = 113 ∧
      7 * 103 % 120 = 1 ∧
      generateKeys 11 13 = some (⟨143, 7⟩, ⟨143, 18446744073709551599⟩) := by
  decide

/-- Claim C20: the round trip of `encrypt` and `decrypt` and its zero-byte
limit.  For a modulus `n` with `65536 ≤ n ≤ 2^32`, exponents `e`, `d` with
`m^(e*d)` congruent to `m` modulo `n` for every `m < 65536`, and a message
`msg` of bytes, `decrypt (encrypt msg (n, e)) (n, d)` is `msg` if and only if
`msg` has no zero byte at an odd index; `encrypt` emits `ceil(len(msg)/2)`
blocks of 8 bytes; and the round trip returns `msg` without its zero bytes
at odd indices. -/
theorem rsa_round_trip (n e d : Nat) (msg : List Nat)
    (hn1 : 65536 ≤ n) (hn2 : n ≤ 4294967296)
    (hed : ∀ m, m < 65536 → m ^ (e * d) % n = m % n)
    (hmsg : ∀ b ∈ msg, b < 256) :
    (decrypt (encrypt msg ⟨n, e⟩) ⟨n, d⟩ = msg ↔ ∀ i : Nat, i % 2 = 1 → msg[i]? ≠ some 0) ∧
      (encrypt msg ⟨n, e⟩).length = 8 * ((msg.length + 1) / 2) ∧
      decrypt (encrypt msg ⟨n, e⟩) ⟨n, d⟩ = dropOddZeros msg := by
  have h := decrypt_encrypt_eq n e d msg hn1 hn2 hed hmsg
  refine ⟨?_, ?_, h⟩
  · rw [h]
    exact dropOddZeros_eq_iff msg.length msg (le_refl _)
  · rw [encrypt_eq, flatMap_u64Bytes_length, messageBlocks_length msg.length msg (le_refl _)]

/-- The round trip with `n = 65537`, `e = 3`, `d = 43691` on the message
`72, 105, 0, 33`, whose byte at index `2` is zero. -/
theorem rsa_round_trip_witness :
    ((65536 ≤ 65537 ∧ 65537 ≤ 4294967296 ∧
        (∀ m, m < 65536 → m ^ (3 * 43691) % 65537 = m % 65537) ∧
        ∀ b ∈ [72, 105, 0, 33], b < 256)) ∧
      ((decrypt (encrypt [72, 105, 0, 33] ⟨65537, 3⟩) ⟨65537, 43691⟩ = [72, 105, 0, 33] ↔
          ∀ i : Nat, i % 2 = 1 → [72, 105, 0, 33][i]? ≠ some 0) ∧
        (encrypt [72, 105, 0, 33] ⟨65537, 3⟩).length = 8 * (([72, 105, 0, 33].length + 1) / 2) ∧
        decrypt (encrypt [72, 105, 0, 33] ⟨65537, 3⟩) ⟨65537, 43691⟩
          = dropOddZeros [72, 105, 0, 33]) :=
  ⟨⟨by decide, by decide, fun m _ => fermat_65537 m, by decide⟩,
    rsa_round_trip 65537 3 43691 [72, 105, 0, 33] (by decide) (by decide)
      (fun m _ => fermat_65537 m) (by decide)⟩

end FastRSA
